import Mathlib

/-!
Shallow embedding of the matching engine of `duplicates.py` (the nbpc
repository): the model-name cleaner `clean_model_name`, the per-field
normalizer used by `normalize_for_comparison`, and the progressive
three-stage matcher `find_matches`.

Strings are modelled by Lean `String` (a structure over `List Char`); the
Python text primitives `str.lower`, `str.strip`, `str.split`, `" ".join`
and `re.sub (backslash-s+, " ")` are embedded as executable functions on
`List Char`.  `lower` and whitespace are modelled at ASCII granularity
(Lean `Char.toLower` / `Char.isWhitespace`), which covers every value the
spec and the datasets use.  A missing (NaN) field value is modelled as
`none`.
-/

namespace NBPC

/-- Python `str.lower()`: lowercase every character. -/
def lowerChars (l : List Char) : List Char :=
  l.map Char.toLower

/-- Python `str.strip()`: drop leading and trailing whitespace. -/
def stripChars (l : List Char) : List Char :=
  ((l.dropWhile Char.isWhitespace).reverse.dropWhile Char.isWhitespace).reverse

/-- The fixed punctuation set of `clean_model_name` (source line 34:
`".-_/()[]\x7b\x7d:"`). -/
def punctuation_to_remove : List Char :=
  ['.', '-', '_', '/', '(', ')', '[', ']', '\x7b', '\x7d', ':']

/-- Membership in the punctuation set. -/
def isPunct (c : Char) : Bool :=
  punctuation_to_remove.contains c

/-- Python `cleaned.replace(char, " ")` for a one-character pattern. -/
def replaceChar (l : List Char) (c : Char) : List Char :=
  l.map (fun d => if d = c then ' ' else d)

/-- The punctuation-removal loop of `clean_model_name` (source lines 35-36):
each punctuation character is replaced by a space, one character at a time. -/
def removePunct (l : List Char) : List Char :=
  punctuation_to_remove.foldl replaceChar l

/-- Python `re.sub(backslash-s+, " ", cleaned)`: every maximal run of
whitespace becomes a single space. -/
def collapseWs : List Char → List Char
  | [] => []
  | [c] => [if c.isWhitespace then ' ' else c]
  | c :: d :: rest =>
      if c.isWhitespace && d.isWhitespace then collapseWs (d :: rest)
      else (if c.isWhitespace then ' ' else c) :: collapseWs (d :: rest)

/-- Split on single whitespace characters, keeping empty pieces
(helper for `pySplit`). -/
def splitWs : List Char → List (List Char)
  | [] => [[]]
  | c :: rest =>
      match splitWs rest with
      | [] => [[c]]
      | t :: ts => if c.isWhitespace then [] :: t :: ts else (c :: t) :: ts

/-- Python `str.split()` with no argument: whitespace-delimited tokens,
empty pieces discarded. -/
def pySplit (l : List Char) : List (List Char) :=
  (splitWs l).filter (fun t => !t.isEmpty)

/-- Python `" ".join(words)`. -/
def joinSp : List (List Char) → List Char
  | [] => []
  | [t] => t
  | t :: t' :: ts => t ++ ' ' :: joinSp (t' :: ts)

/-- The noise vocabulary of `clean_model_name` (source lines 42-65):
generic descriptors followed by brand names. -/
def noise_terms : List String :=
  ["notebook", "laptop", "gamer", "gaming", "kit", "bundle", "ordenador",
   "ultrabook",
   "acer", "dell", "hp", "lenovo", "asus", "msi", "apple", "microsoft",
   "samsung", "lg", "huawei", "razer", "alienware"]

/-- The noise vocabulary as character lists, for token comparison. -/
def noiseTok : List (List Char) :=
  noise_terms.map String.data

/-- The token list produced by the body of `clean_model_name` on a non-empty
input: lowercase, strip, replace punctuation by spaces, collapse whitespace
and strip again, split into words, drop noise terms. -/
def cleanTokens (l : List Char) : List (List Char) :=
  let c1 := lowerChars l
  let c2 := stripChars c1
  let c3 := removePunct c2
  let c4 := stripChars (collapseWs c3)
  let words := pySplit c4
  words.filter (fun w => !noiseTok.contains w)

/-- The character-level body of `clean_model_name`: the surviving tokens
rejoined with single spaces. -/
def cleanChars (l : List Char) : List Char :=
  joinSp (cleanTokens l)

/-- Embeds `clean_model_name` (source lines 12-74).  `none` models a NaN value:
`pd.isna(model_name) or model_name == ""` short-circuits to `""`. -/
def clean_model_name (model_name : Option String) : String :=
  match model_name with
  | none => ""
  | some s => if s = "" then "" else String.mk (cleanChars s.data)

/-- The generic field normalizer of `normalize_for_comparison`:
`fillna("").astype(str).str.strip().str.lower()`. -/
def normField (v : Option String) : String :=
  String.mk (lowerChars (stripChars ((v.getD "").data)))

/-- A record: the fields of one row that the matching engine reads.
`none` models a missing (NaN) value.  Both country columns are present so
the `is_master` column selection is expressible. -/
structure Record where
  region : Option String
  countryTerritory : Option String
  country : Option String
  brand : Option String
  modelName : Option String
  cpuModel : Option String
  gpuModel : Option String
  resolution : Option String
deriving DecidableEq, Repr

/-- A record augmented with the derived comparison keys that
`normalize_for_comparison` attaches to a working copy of the dataframe. -/
structure NormRecord where
  orig : Record
  region_norm : String
  country_norm : String
  brand_norm : String
  model_clean : String
  cpu_norm : String
  gpu_norm : String
  resolution_norm : String
deriving DecidableEq, Repr

/-- Embeds `normalize_for_comparison` (source lines 117-146) on one row: the
country key is read from `"Country/territory"` when `is_master` and from
`"Country"` otherwise (source lines 125-127). -/
def normalize_for_comparison (r : Record) (is_master : Bool) : NormRecord :=
  { orig := r
  , region_norm := normField r.region
  , country_norm := normField (if is_master then r.countryTerritory else r.country)
  , brand_norm := normField r.brand
  , model_clean := clean_model_name r.modelName
  , cpu_norm := normField r.cpuModel
  , gpu_norm := normField r.gpuModel
  , resolution_norm := normField r.resolution }

/-- The loop body of `find_matches` (source lines 171-207) for one scraped
row: the three-stage progressive filter over the normalized master rows,
returning `true` when the row is classified DUPLICATE. -/
def isDuplicate (master_norm : List NormRecord) (s : NormRecord) : Bool :=
  let filtered_master := master_norm.filter (fun m =>
    m.region_norm == s.region_norm && m.country_norm == s.country_norm &&
      m.brand_norm == s.brand_norm)
  if filtered_master.length = 0 then false
  else
    let model_matches := filtered_master.filter (fun m =>
      m.model_clean == s.model_clean)
    if model_matches.length = 0 then false
    else
      let cpu_gpu_resolution_matches := model_matches.filter (fun m =>
        m.cpu_norm == s.cpu_norm && m.gpu_norm == s.gpu_norm &&
          m.resolution_norm == s.resolution_norm)
      decide (0 < cpu_gpu_resolution_matches.length)

/-- The index-accumulation loop of `find_matches`: each `(idx, row)` pair of
the enumerated scraped rows lands in the NEW index list or the DUPLICATE
index list, in iteration order. -/
def matchLoop (master_norm : List NormRecord) :
    List (Nat × NormRecord) → List Nat × List Nat
  | [] => ([], [])
  | (idx, row) :: rest =>
      let r := matchLoop master_norm rest
      if isDuplicate master_norm row then (r.1, idx :: r.2)
      else (idx :: r.1, r.2)

/-- Python `df.iloc[idxs]`: select rows by position. -/
def iloc (df : List Record) (idxs : List Nat) : List Record :=
  idxs.filterMap (fun i => df.get? i)

/-- Applies `normalize_for_comparison` to a whole dataframe: one normalized
row per input row. -/
def normalizeDf (df : List Record) (is_master : Bool) : List NormRecord :=
  df.map (fun r => normalize_for_comparison r is_master)

/-- The two index lists built by `find_matches` (NEW indices, DUPLICATE
indices).  NOTE: the source normalizes BOTH dataframes with
`is_master=False` (source lines 164-166). -/
def classification (scraped_df master_df : List Record) : List Nat × List Nat :=
  let scraped_norm := normalizeDf scraped_df false
  let master_norm := normalizeDf master_df false
  matchLoop master_norm scraped_norm.enum

/-- Embeds `find_matches` (source lines 149-216): classify every scraped row, then
select the original (un-normalized) rows by index. -/
def find_matches (scraped_df master_df : List Record) :
    List Record × List Record :=
  let lists := classification scraped_df master_df
  (iloc scraped_df lists.1, iloc scraped_df lists.2)

/-- Follows the spec's words (section 4.1): the caller selects the country
source field by dataset role, so the master-role dataset is normalized with
`is_master := true`.  Named `_spec_role_selected` because this is the
claimed behavior, to be compared with `find_matches` as the code has it. -/
def find_matches_spec_role_selected (scraped_df master_df : List Record) :
    List Record × List Record :=
  let scraped_norm := normalizeDf scraped_df false
  let master_norm := normalizeDf master_df true
  let lists := matchLoop master_norm scraped_norm.enum
  (iloc scraped_df lists.1, iloc scraped_df lists.2)

/-- Agreement of two normalized rows on all seven comparison keys. -/
def keysAgree (a b : NormRecord) : Prop :=
  a.region_norm = b.region_norm ∧ a.country_norm = b.country_norm ∧
  a.brand_norm = b.brand_norm ∧ a.model_clean = b.model_clean ∧
  a.cpu_norm = b.cpu_norm ∧ a.gpu_norm = b.gpu_norm ∧
  a.resolution_norm = b.resolution_norm

instance (a b : NormRecord) : Decidable (keysAgree a b) := by
  unfold keysAgree; infer_instance

/-- Agreement of two raw records on all seven keys, as the code computes
them (both country keys from the `Country` field, since `find_matches`
normalizes both dataframes with `is_master=False`). -/
def recordKeysAgree (m c : Record) : Prop :=
  keysAgree (normalize_for_comparison m false) (normalize_for_comparison c false)

instance (m c : Record) : Decidable (recordKeysAgree m c) := by
  unfold recordKeysAgree; infer_instance

/-- Agreement on the stage-1 and stage-2 keys only (region, country, brand,
cleaned model name), as the code computes them. -/
def stage12Agree (m c : Record) : Prop :=
  normField m.region = normField c.region ∧
  normField m.country = normField c.country ∧
  normField m.brand = normField c.brand ∧
  clean_model_name m.modelName = clean_model_name c.modelName

instance (m c : Record) : Decidable (stage12Agree m c) := by
  unfold stage12Agree; infer_instance

/-- Boolean check that no two adjacent characters are both whitespace. -/
def noTwoAdjWs : List Char → Bool
  | [] => true
  | [_] => true
  | a :: b :: rest => !(a.isWhitespace && b.isWhitespace) && noTwoAdjWs (b :: rest)

/-- The record with every field missing. -/
def emptyRecord : Record :=
  { region := none, countryTerritory := none, country := none, brand := none
  , modelName := none, cpuModel := none, gpuModel := none, resolution := none }

/-! ### Character-level helper lemmas -/

theorem char_toNat_ofNat_valid (n : Nat) (h : n.isValidChar) :
    (Char.ofNat n).toNat = n := by
  rw [Char.ofNat, dif_pos h]
  rfl

theorem toLower_eq (c : Char) :
    c.toLower = if 65 ≤ c.toNat ∧ c.toNat ≤ 90 then Char.ofNat (c.toNat + 32) else c :=
  rfl

theorem toLower_idem (c : Char) : c.toLower.toLower = c.toLower := by
  by_cases h : 65 ≤ c.toNat ∧ c.toNat ≤ 90
  · have hv : (c.toNat + 32).isValidChar := by
      left
      omega
    have hlow : c.toLower = Char.ofNat (c.toNat + 32) := by
      rw [toLower_eq, if_pos h]
    have ht : c.toLower.toNat = c.toNat + 32 := by
      rw [hlow, char_toNat_ofNat_valid _ hv]
    rw [toLower_eq c.toLower, if_neg]
    rw [ht]
    omega
  · have hlow : c.toLower = c := by
      rw [toLower_eq, if_neg h]
    rw [hlow, hlow]

/-! ### stripChars lemmas -/

theorem mem_dropWhile {p : Char → Bool} {l : List Char} {c : Char}
    (h : c ∈ l.dropWhile p) : c ∈ l :=
  (List.dropWhile_sublist p).mem h

theorem mem_stripChars {l : List Char} {c : Char} (h : c ∈ stripChars l) :
    c ∈ l := by
  unfold stripChars at h
  rw [List.mem_reverse] at h
  have h2 := mem_dropWhile h
  rw [List.mem_reverse] at h2
  exact mem_dropWhile h2

theorem dropWhile_eq_self_of_head {p : Char → Bool} {l : List Char}
    (h : ∀ a, l.head? = some a → p a = false) : l.dropWhile p = l := by
  cases l with
  | nil => rfl
  | cons c r =>
      rw [List.dropWhile_cons, h c rfl]
      simp

theorem stripChars_eq_self {l : List Char}
    (h1 : ∀ a, l.head? = some a → a.isWhitespace = false)
    (h2 : ∀ a, l.getLast? = some a → a.isWhitespace = false) :
    stripChars l = l := by
  unfold stripChars
  rw [dropWhile_eq_self_of_head h1]
  rw [dropWhile_eq_self_of_head (by simpa using h2)]
  exact List.reverse_reverse l

/-! ### removePunct lemmas -/

theorem foldl_replaceChar (ps : List Char) : ∀ l : List Char,
    ps.foldl replaceChar l = l.map (fun c => if ps.contains c then ' ' else c) := by
  induction ps with
  | nil =>
      intro l
      simp [List.contains]
  | cons p ps ih =>
      intro l
      rw [List.foldl_cons, ih (replaceChar l p)]
      unfold replaceChar
      rw [List.map_map]
      apply List.map_congr_left
      intro a _
      simp only [Function.comp_apply]
      by_cases hap : a = p
      · subst hap
        rw [if_pos rfl, ite_self]
        rw [if_pos (by simp [List.contains_cons])]
      · rw [if_neg hap]
        have hcond : (p :: ps).contains a = ps.contains a := by
          simp [List.contains_cons, hap]
        rw [hcond]

theorem removePunct_eq_map (l : List Char) :
    removePunct l = l.map (fun c => if isPunct c then ' ' else c) := by
  rw [removePunct, foldl_replaceChar]
  rfl

theorem mem_removePunct {l : List Char} {c : Char} (h : c ∈ removePunct l) :
    c = ' ' ∨ (c ∈ l ∧ isPunct c = false) := by
  rw [removePunct_eq_map] at h
  rcases List.mem_map.mp h with ⟨a, ha, rfl⟩
  by_cases hp : isPunct a
  · left
    simp [hp]
  · right
    simp only [Bool.not_eq_true] at hp
    rw [if_neg (by simp [hp])]
    exact ⟨ha, hp⟩

theorem removePunct_eq_self {l : List Char}
    (h : ∀ c ∈ l, isPunct c = false) : removePunct l = l := by
  rw [removePunct_eq_map]
  conv_rhs => rw [← List.map_id l]
  apply List.map_congr_left
  intro c hc
  rw [if_neg (by simp [h c hc])]
  rfl

/-! ### collapseWs lemmas -/

theorem mem_collapseWs : ∀ {l : List Char} {c : Char},
    c ∈ collapseWs l → c = ' ' ∨ c ∈ l := by
  intro l
  induction l using collapseWs.induct with
  | case1 =>
      intro c hc
      simp [collapseWs] at hc
  | case2 d =>
      intro c hc
      simp only [collapseWs, List.mem_singleton] at hc
      subst hc
      by_cases hw : d.isWhitespace
      · left
        rw [if_pos hw]
      · right
        rw [if_neg hw]
        exact List.mem_singleton_self d
  | case3 c d rest hws ih =>
      intro a ha
      rw [collapseWs, if_pos hws] at ha
      rcases ih ha with h | h
      · exact Or.inl h
      · exact Or.inr (List.mem_cons_of_mem c h)
  | case4 c d rest hws ih =>
      intro a ha
      rw [collapseWs, if_neg hws] at ha
      rcases List.mem_cons.mp ha with h | h
      · by_cases hw : c.isWhitespace
        · left
          rw [h, if_pos hw]
        · right
          rw [h, if_neg hw]
          exact List.mem_cons_self c _
      · rcases ih h with h' | h'
        · exact Or.inl h'
        · exact Or.inr (List.mem_cons_of_mem c h')

theorem collapseWs_eq_self : ∀ l : List Char, noTwoAdjWs l = true →
    (∀ c ∈ l, c.isWhitespace = true → c = ' ') → collapseWs l = l := by
  intro l
  induction l using collapseWs.induct with
  | case1 =>
      intro _ _
      rfl
  | case2 d =>
      intro _ h2
      by_cases hw : d.isWhitespace
      · rw [collapseWs, if_pos hw, h2 d (List.mem_singleton_self d) hw]
      · rw [collapseWs, if_neg hw]
  | case3 c d rest hws ih =>
      intro h1 h2
      exfalso
      rw [noTwoAdjWs, hws] at h1
      simp at h1
  | case4 c d rest hws ih =>
      intro h1 h2
      rw [collapseWs, if_neg hws]
      have hrest : collapseWs (d :: rest) = d :: rest := by
        apply ih
        · rw [noTwoAdjWs] at h1
          exact (Bool.and_eq_true _ _).mp h1 |>.2
        · intro a ha haw
          exact h2 a (List.mem_cons_of_mem c ha) haw
      rw [hrest]
      by_cases hw : c.isWhitespace
      · rw [if_pos hw, h2 c (List.mem_cons_self c _) hw]
      · rw [if_neg hw]

/-! ### splitWs and pySplit lemmas -/

theorem splitWs_cons_of_eq (c : Char) {rest t0 : List Char}
    {ts : List (List Char)} (h : splitWs rest = t0 :: ts) :
    splitWs (c :: rest) =
      if c.isWhitespace then [] :: t0 :: ts else (c :: t0) :: ts := by
  rw [splitWs, h]

theorem splitWs_ne_nil : ∀ l : List Char, splitWs l ≠ [] := by
  intro l
  induction l with
  | nil => simp [splitWs]
  | cons c rest ih =>
      cases h : splitWs rest with
      | nil => exact absurd h ih
      | cons t ts =>
          rw [splitWs_cons_of_eq c h]
          split <;> simp

theorem mem_splitWs_chars : ∀ {l t : List Char}, t ∈ splitWs l →
    ∀ c ∈ t, c ∈ l ∧ c.isWhitespace = false := by
  intro l
  induction l with
  | nil =>
      intro t ht c hc
      simp only [splitWs, List.mem_singleton] at ht
      subst ht
      simp at hc
  | cons a rest ih =>
      intro t ht c hc
      cases h : splitWs rest with
      | nil => exact absurd h (splitWs_ne_nil rest)
      | cons t0 ts =>
          rw [splitWs_cons_of_eq a h] at ht
          by_cases hw : a.isWhitespace
          · rw [if_pos hw] at ht
            rcases List.mem_cons.mp ht with rfl | ht'
            · simp at hc
            · have := ih (h ▸ ht') c hc
              exact ⟨List.mem_cons_of_mem a this.1, this.2⟩
          · rw [if_neg hw] at ht
            rcases List.mem_cons.mp ht with rfl | ht'
            · rcases List.mem_cons.mp hc with rfl | hc'
              · exact ⟨List.mem_cons_self c rest, by simpa using hw⟩
              · have := ih (h ▸ List.mem_cons_self t0 ts) c hc'
                exact ⟨List.mem_cons_of_mem a this.1, this.2⟩
            · have := ih (h ▸ List.mem_cons_of_mem t0 ht') c hc
              exact ⟨List.mem_cons_of_mem a this.1, this.2⟩

theorem splitWs_across_token : ∀ (t : List Char),
    (∀ c ∈ t, c.isWhitespace = false) → ∀ (r x : List Char) (xs : List (List Char)),
    splitWs r = x :: xs → splitWs (t ++ r) = (t ++ x) :: xs := by
  intro t
  induction t with
  | nil =>
      intro _ r x xs hr
      simpa using hr
  | cons c t' ih =>
      intro hnw r x xs hr
      have hrec := ih (fun a ha => hnw a (List.mem_cons_of_mem c ha)) r x xs hr
      have hcw : c.isWhitespace = false := hnw c (List.mem_cons_self c t')
      rw [List.cons_append, splitWs_cons_of_eq c hrec, if_neg (by simp [hcw])]
      rfl

theorem splitWs_ws_cons (a : Char) (ha : a.isWhitespace = true) (r : List Char) :
    splitWs (a :: r) = [] :: splitWs r := by
  cases h : splitWs r with
  | nil => exact absurd h (splitWs_ne_nil r)
  | cons t ts => rw [splitWs_cons_of_eq a h, if_pos ha]

/-! ### joinSp lemmas -/

/-- The goodness predicate preserved by the cleaning pipeline: every token is
non-empty, free of whitespace, punctuation and uppercase letters, and is not
a noise term. -/
def GoodToks (ts : List (List Char)) : Prop :=
  ∀ t ∈ ts, t ≠ [] ∧
    (∀ c ∈ t, c.isWhitespace = false ∧ isPunct c = false ∧ c.toLower = c) ∧
    noiseTok.contains t = false

theorem mem_joinSp : ∀ {ts : List (List Char)} {c : Char},
    c ∈ joinSp ts → c = ' ' ∨ ∃ t ∈ ts, c ∈ t := by
  intro ts
  induction ts using joinSp.induct with
  | case1 =>
      intro c hc
      simp [joinSp] at hc
  | case2 t =>
      intro c hc
      rw [joinSp] at hc
      exact Or.inr ⟨t, List.mem_singleton_self t, hc⟩
  | case3 t t' ts ih =>
      intro c hc
      rw [joinSp] at hc
      rcases List.mem_append.mp hc with h | h
      · exact Or.inr ⟨t, List.mem_cons_self t _, h⟩
      · rcases List.mem_cons.mp h with rfl | h'
        · exact Or.inl rfl
        · rcases ih h' with h'' | ⟨u, hu, hcu⟩
          · exact Or.inl h''
          · exact Or.inr ⟨u, List.mem_cons_of_mem t hu, hcu⟩

theorem joinSp_ne_nil {t : List Char} {ts : List (List Char)} (h : t ≠ []) :
    joinSp (t :: ts) ≠ [] := by
  cases ts with
  | nil => exact h
  | cons t' ts => simp [joinSp]

theorem joinSp_head? {t : List Char} (ts : List (List Char)) (h : t ≠ []) :
    (joinSp (t :: ts)).head? = t.head? := by
  cases ts with
  | nil => rfl
  | cons t' ts =>
      rw [joinSp]
      cases t with
      | nil => exact absurd rfl h
      | cons c t0 => rfl

theorem joinSp_getLast? : ∀ (ts : List (List Char)), (∀ t ∈ ts, t ≠ []) →
    ∀ a, (joinSp ts).getLast? = some a → ∃ t ∈ ts, t.getLast? = some a := by
  intro ts
  induction ts using joinSp.induct with
  | case1 =>
      intro _ a ha
      simp [joinSp] at ha
  | case2 t =>
      intro _ a ha
      exact ⟨t, List.mem_singleton_self t, ha⟩
  | case3 t t' ts ih =>
      intro hne a ha
      rw [joinSp, List.getLast?_append] at ha
      have hj : joinSp (t' :: ts) ≠ [] :=
        joinSp_ne_nil (hne t' (List.mem_cons_of_mem t (List.mem_cons_self t' ts)))
      cases hg : (joinSp (t' :: ts)).getLast? with
      | none => exact absurd (List.getLast?_eq_none_iff.mp hg) hj
      | some b =>
          have hlast : (' ' :: joinSp (t' :: ts)).getLast? = some b := by
            cases hjj : joinSp (t' :: ts) with
            | nil => exact absurd hjj hj
            | cons x xs =>
                rw [hjj] at hg
                rw [List.getLast?_cons_cons, hg]
          rw [hlast] at ha
          simp only [Option.or_some, Option.some.injEq] at ha
          subst ha
          have := ih (fun u hu => hne u (List.mem_cons_of_mem t hu)) b hg
          rcases this with ⟨u, hu, hub⟩
          exact ⟨u, List.mem_cons_of_mem t hu, hub⟩

theorem pySplit_joinSp : ∀ ts : List (List Char),
    (∀ t ∈ ts, t ≠ [] ∧ ∀ c ∈ t, c.isWhitespace = false) →
    pySplit (joinSp ts) = ts := by
  intro ts
  induction ts using joinSp.induct with
  | case1 =>
      intro _
      rfl
  | case2 t =>
      intro h
      obtain ⟨hne, hnw⟩ := h t (List.mem_singleton_self t)
      rw [joinSp]
      have : splitWs (t ++ []) = (t ++ []) :: [] :=
        splitWs_across_token t hnw [] [] [] rfl
      rw [List.append_nil] at this
      rw [pySplit, this]
      simp [hne]
  | case3 t t' ts ih =>
      intro h
      obtain ⟨hne, hnw⟩ := h t (List.mem_cons_self t _)
      have hrest : ∀ u ∈ t' :: ts, u ≠ [] ∧ ∀ c ∈ u, c.isWhitespace = false :=
        fun u hu => h u (List.mem_cons_of_mem t hu)
      rw [joinSp]
      have hws : splitWs (' ' :: joinSp (t' :: ts)) = [] :: splitWs (joinSp (t' :: ts)) :=
        splitWs_ws_cons ' ' (by decide) _
      cases hsp : splitWs (joinSp (t' :: ts)) with
      | nil => exact absurd hsp (splitWs_ne_nil _)
      | cons x xs =>
          rw [hsp] at hws
          have hfull : splitWs (t ++ ' ' :: joinSp (t' :: ts)) = (t ++ []) :: x :: xs :=
            splitWs_across_token t hnw _ [] (x :: xs) hws
          rw [List.append_nil] at hfull
          rw [pySplit, hfull]
          have ihres : pySplit (joinSp (t' :: ts)) = t' :: ts := ih hrest
          rw [pySplit, hsp] at ihres
          rw [List.filter_cons, if_pos (by simpa using hne), ihres]

/-! ### noTwoAdjWs lemmas -/

theorem noTwoAdjWs_of_all_nonws : ∀ {l : List Char},
    (∀ c ∈ l, c.isWhitespace = false) → noTwoAdjWs l = true := by
  intro l
  induction l with
  | nil => intro _; rfl
  | cons a l' ih =>
      intro h
      cases l' with
      | nil => rfl
      | cons b r =>
          rw [noTwoAdjWs]
          rw [h a (List.mem_cons_self a _)]
          rw [ih (fun c hc => h c (List.mem_cons_of_mem a hc))]
          rfl

theorem noTwoAdjWs_nonws_append : ∀ {l1 l2 : List Char},
    (∀ c ∈ l1, c.isWhitespace = false) → noTwoAdjWs l2 = true →
    noTwoAdjWs (l1 ++ l2) = true := by
  intro l1
  induction l1 with
  | nil =>
      intro l2 _ h2
      simpa using h2
  | cons a l1' ih =>
      intro l2 h1 h2
      have hrec := ih (fun c hc => h1 c (List.mem_cons_of_mem a hc)) h2
      rw [List.cons_append]
      cases hl : l1' ++ l2 with
      | nil => rfl
      | cons b r =>
          rw [noTwoAdjWs, h1 a (List.mem_cons_self a _)]
          rw [hl] at hrec
          rw [hrec]
          rfl

theorem noTwoAdjWs_joinSp : ∀ ts : List (List Char),
    (∀ t ∈ ts, t ≠ [] ∧ ∀ c ∈ t, c.isWhitespace = false) →
    noTwoAdjWs (joinSp ts) = true := by
  intro ts
  induction ts using joinSp.induct with
  | case1 =>
      intro _
      rfl
  | case2 t =>
      intro h
      exact noTwoAdjWs_of_all_nonws (h t (List.mem_singleton_self t)).2
  | case3 t t' ts ih =>
      intro h
      obtain ⟨hne, hnw⟩ := h t (List.mem_cons_self t _)
      have hrest : ∀ u ∈ t' :: ts, u ≠ [] ∧ ∀ c ∈ u, c.isWhitespace = false :=
        fun u hu => h u (List.mem_cons_of_mem t hu)
      rw [joinSp]
      apply noTwoAdjWs_nonws_append hnw
      have hj := ih hrest
      obtain ⟨hne', hnw'⟩ := hrest t' (List.mem_cons_self t' ts)
      cases hjj : joinSp (t' :: ts) with
      | nil => exact absurd hjj (joinSp_ne_nil hne')
      | cons x xs =>
          rw [noTwoAdjWs]
          have hx : x.isWhitespace = false := by
            have hh : (joinSp (t' :: ts)).head? = t'.head? := joinSp_head? ts hne'
            rw [hjj] at hh
            cases t' with
            | nil => exact absurd rfl hne'
            | cons c t0 =>
                simp only [List.head?_cons, Option.some.injEq] at hh
                rw [hh]
                exact hnw' c (List.mem_cons_self c t0)
          rw [hx]
          rw [hjj] at hj
          rw [hj]
          rfl

/-! ### The cleaner is the identity on joined good token lists -/

theorem map_eq_self_of {f : Char → Char} {l : List Char}
    (h : ∀ c ∈ l, f c = c) : l.map f = l := by
  conv_rhs => rw [← List.map_id l]
  exact List.map_congr_left h

theorem lowerChars_joinSp {ts : List (List Char)} (h : GoodToks ts) :
    lowerChars (joinSp ts) = joinSp ts := by
  apply map_eq_self_of
  intro c hc
  rcases mem_joinSp hc with rfl | ⟨t, ht, hct⟩
  · decide
  · exact ((h t ht).2.1 c hct).2.2

theorem stripChars_joinSp {ts : List (List Char)} (h : GoodToks ts) :
    stripChars (joinSp ts) = joinSp ts := by
  cases ts with
  | nil => rfl
  | cons t ts' =>
      obtain ⟨hne, hchars, _⟩ := h t (List.mem_cons_self t _)
      apply stripChars_eq_self
      · intro a ha
        rw [joinSp_head? ts' hne] at ha
        cases t with
        | nil => exact absurd rfl hne
        | cons c t0 =>
            simp only [List.head?_cons, Option.some.injEq] at ha
            subst ha
            exact (hchars c (List.mem_cons_self c t0)).1
      · intro a ha
        have := joinSp_getLast? (t :: ts') (fun u hu => (h u hu).1) a ha
        rcases this with ⟨u, hu, hua⟩
        have hau : a ∈ u := List.mem_of_getLast?_eq_some hua
        exact ((h u hu).2.1 a hau).1

theorem removePunct_joinSp {ts : List (List Char)} (h : GoodToks ts) :
    removePunct (joinSp ts) = joinSp ts := by
  apply removePunct_eq_self
  intro c hc
  rcases mem_joinSp hc with rfl | ⟨t, ht, hct⟩
  · decide
  · exact ((h t ht).2.1 c hct).2.1

theorem collapseWs_joinSp {ts : List (List Char)} (h : GoodToks ts) :
    collapseWs (joinSp ts) = joinSp ts := by
  apply collapseWs_eq_self
  · exact noTwoAdjWs_joinSp ts (fun t ht =>
      ⟨(h t ht).1, fun c hc => ((h t ht).2.1 c hc).1⟩)
  · intro c hc hcw
    rcases mem_joinSp hc with rfl | ⟨t, ht, hct⟩
    · rfl
    · exact absurd hcw (by rw [((h t ht).2.1 c hct).1]; simp)

theorem cleanTokens_eq (l : List Char) :
    cleanTokens l =
      (pySplit (stripChars (collapseWs (removePunct (stripChars (lowerChars l)))))).filter
        (fun w => !noiseTok.contains w) :=
  rfl

theorem cleanTokens_joinSp {ts : List (List Char)} (h : GoodToks ts) :
    cleanTokens (joinSp ts) = ts := by
  rw [cleanTokens_eq]
  rw [lowerChars_joinSp h, stripChars_joinSp h, removePunct_joinSp h,
    collapseWs_joinSp h, stripChars_joinSp h]
  rw [pySplit_joinSp ts (fun t ht =>
    ⟨(h t ht).1, fun c hc => ((h t ht).2.1 c hc).1⟩)]
  rw [List.filter_eq_self.mpr]
  intro t ht
  rw [(h t ht).2.2]
  rfl

/-! ### The tokens produced by the cleaner are good -/

theorem cleanTokens_good (l : List Char) : GoodToks (cleanTokens l) := by
  intro t ht
  rw [cleanTokens_eq] at ht
  rw [List.mem_filter] at ht
  obtain ⟨hsp, hnoise⟩ := ht
  rw [pySplit, List.mem_filter] at hsp
  obtain ⟨hsw, hemp⟩ := hsp
  refine ⟨?_, ?_, ?_⟩
  · intro hnil
    subst hnil
    simp at hemp
  · intro c hc
    obtain ⟨hc4, hcw⟩ := mem_splitWs_chars hsw c hc
    have hc3 := mem_stripChars hc4
    have hsp' : c = ' ' → False := by
      intro hsp'
      subst hsp'
      simp [Char.isWhitespace] at hcw
    rcases mem_collapseWs hc3 with h' | hc2
    · exact absurd h' hsp'
    rcases mem_removePunct hc2 with h' | ⟨hc1, hpunct⟩
    · exact absurd h' hsp'
    have hc0 := mem_stripChars hc1
    rcases List.mem_map.mp hc0 with ⟨a, _, rfl⟩
    exact ⟨hcw, hpunct, toLower_idem a⟩
  · simpa using hnoise

/-! ### Idempotence of the cleaner -/

theorem cleanChars_idem (l : List Char) :
    cleanChars (cleanChars l) = cleanChars l := by
  show joinSp (cleanTokens (joinSp (cleanTokens l))) = joinSp (cleanTokens l)
  rw [cleanTokens_joinSp (cleanTokens_good l)]

theorem data_string_mk (l : List Char) : (String.mk l).data = l := rfl

theorem clean_model_name_some_eq (s : String) (h : ¬ s = "") :
    clean_model_name (some s) = String.mk (cleanChars s.data) := by
  rw [clean_model_name, if_neg h]

theorem cleanChars_canonical (l : List Char) :
    ((cleanChars l).all (fun c => !isPunct c)) = true
    ∧ ((pySplit (cleanChars l)).all (fun t => !noiseTok.contains t)) = true
    ∧ stripChars (cleanChars l) = cleanChars l
    ∧ noTwoAdjWs (cleanChars l) = true := by
  have hg := cleanTokens_good l
  have hplain : ∀ t ∈ cleanTokens l, t ≠ [] ∧ ∀ c ∈ t, c.isWhitespace = false :=
    fun t ht => ⟨(hg t ht).1, fun c hc => ((hg t ht).2.1 c hc).1⟩
  refine ⟨?_, ?_, ?_, ?_⟩
  · rw [List.all_eq_true]
    intro c hc
    have hc' : c ∈ joinSp (cleanTokens l) := hc
    rcases mem_joinSp hc' with rfl | ⟨t, ht, hct⟩
    · decide
    · rw [((hg t ht).2.1 c hct).2.1]
      rfl
  · have hps : pySplit (cleanChars l) = cleanTokens l := pySplit_joinSp _ hplain
    rw [hps, List.all_eq_true]
    intro t ht
    rw [(hg t ht).2.2]
    rfl
  · exact stripChars_joinSp hg
  · exact noTwoAdjWs_joinSp _ hplain

/-- C4: the model-name cleaner is idempotent: for every input `x`,
`clean_model_name (clean_model_name x) = clean_model_name x`. -/
theorem C4_clean_model_name_idempotent (x : Option String) :
    clean_model_name (some (clean_model_name x)) = clean_model_name x := by
  cases x with
  | none => rfl
  | some s =>
      by_cases hs : s = ""
      · subst hs
        rfl
      · rw [clean_model_name_some_eq s hs]
        by_cases hy : String.mk (cleanChars s.data) = ""
        · rw [hy]
          rfl
        · rw [clean_model_name_some_eq _ hy]
          rw [data_string_mk]
          rw [cleanChars_idem]

/-- C10: the output of `clean_model_name` is canonical: it contains no
punctuation character, none of its whitespace-delimited tokens is a noise
term, it has no leading or trailing whitespace, and no two adjacent
characters are both whitespace (tokens are joined by single spaces). -/
theorem C10_clean_model_name_canonical (x : Option String) :
    ((clean_model_name x).data.all (fun c => !isPunct c)) = true
    ∧ ((pySplit (clean_model_name x).data).all (fun t => !noiseTok.contains t)) = true
    ∧ stripChars (clean_model_name x).data = (clean_model_name x).data
    ∧ noTwoAdjWs (clean_model_name x).data = true := by
  cases x with
  | none => exact ⟨rfl, rfl, rfl, rfl⟩
  | some s =>
      by_cases hs : s = ""
      · subst hs
        exact ⟨rfl, rfl, rfl, rfl⟩
      · rw [clean_model_name_some_eq s hs]
        rw [data_string_mk]
        exact cleanChars_canonical s.data

/-! ### matchLoop, enumFrom and filter helper lemmas -/

theorem mem_enumFrom_get? {α : Type} :
    ∀ (l : List α) (i : Nat) (p : Nat × α), p ∈ l.enumFrom i →
    ∃ k, p.1 = i + k ∧ l.get? k = some p.2 := by
  intro l
  induction l with
  | nil =>
      intro i p hp
      simp at hp
  | cons a l' ih =>
      intro i p hp
      rw [List.enumFrom_cons] at hp
      rcases List.mem_cons.mp hp with rfl | hp'
      · exact ⟨0, by simp, rfl⟩
      · obtain ⟨k, hk1, hk2⟩ := ih (i + 1) p hp'
        exact ⟨k + 1, by omega, by simpa using hk2⟩

theorem get?_mem_enumFrom {α : Type} :
    ∀ (l : List α) (i k : Nat) (a : α), l.get? k = some a →
    (i + k, a) ∈ l.enumFrom i := by
  intro l
  induction l with
  | nil =>
      intro i k a h
      simp at h
  | cons b l' ih =>
      intro i k a h
      rw [List.enumFrom_cons]
      cases k with
      | zero =>
          simp only [List.get?_cons_zero, Option.some.injEq] at h
          subst h
          exact List.mem_cons_self _ _
      | succ k' =>
          rw [List.get?_cons_succ] at h
          have := ih (i + 1) k' a h
          have heq : i + (k' + 1) = i + 1 + k' := by omega
          rw [heq]
          exact List.mem_cons_of_mem _ this

theorem length_filter_add_length_filter_not {α : Type} (p : α → Bool) :
    ∀ l : List α,
    (l.filter p).length + (l.filter (fun a => !p a)).length = l.length := by
  intro l
  induction l with
  | nil => rfl
  | cons a l' ih =>
      rw [List.filter_cons, List.filter_cons]
      cases h : p a with
      | false =>
          simp only [h, Bool.not_false, Bool.false_eq_true, if_false, if_true,
            List.length_cons]
          omega
      | true =>
          simp only [h, Bool.not_true, Bool.false_eq_true, if_true, if_false,
            List.length_cons]
          omega

theorem iloc_map_fst (df : List Record) :
    ∀ L : List (Nat × Record), (∀ q ∈ L, df.get? q.1 = some q.2) →
    iloc df (L.map Prod.fst) = L.map Prod.snd := by
  intro L
  induction L with
  | nil => intro _; rfl
  | cons q rest ih =>
      intro h
      have ih' := ih (fun q' hq' => h q' (List.mem_cons_of_mem q hq'))
      simp only [iloc] at ih' ⊢
      rw [List.map_cons, List.map_cons, List.filterMap_cons,
        h q (List.mem_cons_self q rest), ih']

/-! ### Characterization of the classification -/

theorem enum_eq_enumFrom {α : Type} (l : List α) : l.enum = l.enumFrom 0 := rfl

theorem matchLoop_enumFrom (M : List NormRecord) :
    ∀ (s : List Record) (i : Nat),
    matchLoop M ((normalizeDf s false).enumFrom i) =
      (((s.enumFrom i).filter (fun p =>
          !isDuplicate M (normalize_for_comparison p.2 false))).map Prod.fst,
       ((s.enumFrom i).filter (fun p =>
          isDuplicate M (normalize_for_comparison p.2 false))).map Prod.fst) := by
  intro s
  induction s with
  | nil => intro i; rfl
  | cons r s' ih =>
      intro i
      simp only [normalizeDf, List.map_cons, List.enumFrom_cons]
      have ih' := ih (i + 1)
      simp only [normalizeDf] at ih'
      cases h : isDuplicate M (normalize_for_comparison r false) with
      | true => simp [matchLoop, h, ih', List.filter_cons]
      | false => simp [matchLoop, h, ih', List.filter_cons]

theorem classification_eq (s m : List Record) :
    classification s m =
      ((s.enum.filter (fun p =>
          !isDuplicate (normalizeDf m false) (normalize_for_comparison p.2 false))).map
          Prod.fst,
       (s.enum.filter (fun p =>
          isDuplicate (normalizeDf m false) (normalize_for_comparison p.2 false))).map
          Prod.fst) := by
  have h : classification s m =
      matchLoop (normalizeDf m false) ((normalizeDf s false).enumFrom 0) := rfl
  rw [h, matchLoop_enumFrom, enum_eq_enumFrom]

theorem enum_get? {α : Type} (l : List α) : ∀ p ∈ l.enum, l.get? p.1 = some p.2 := by
  intro p hp
  rw [enum_eq_enumFrom] at hp
  obtain ⟨k, hk1, hk2⟩ := mem_enumFrom_get? l 0 p hp
  rw [hk1]
  simpa using hk2

theorem find_matches_eq (s m : List Record) :
    find_matches s m =
      ((s.enum.filter (fun p =>
          !isDuplicate (normalizeDf m false) (normalize_for_comparison p.2 false))).map
          Prod.snd,
       (s.enum.filter (fun p =>
          isDuplicate (normalizeDf m false) (normalize_for_comparison p.2 false))).map
          Prod.snd) := by
  have h : find_matches s m =
      (iloc s (classification s m).1, iloc s (classification s m).2) := rfl
  rw [h, classification_eq, Prod.mk.injEq]
  constructor <;>
  · apply iloc_map_fst
    intro q hq
    exact enum_get? s q (List.mem_filter.mp hq).1

theorem mem_classification_new (s m : List Record) (i : Nat) :
    i ∈ (classification s m).1 ↔
      ∃ c, s.get? i = some c ∧
        isDuplicate (normalizeDf m false) (normalize_for_comparison c false) = false := by
  rw [classification_eq]
  constructor
  · intro h
    rcases List.mem_map.mp h with ⟨p, hp, rfl⟩
    obtain ⟨hpe, hpq⟩ := List.mem_filter.mp hp
    refine ⟨p.2, enum_get? s p hpe, by simpa using hpq⟩
  · rintro ⟨c, hc, hdup⟩
    have hmem : (i, c) ∈ s.enum := by
      rw [enum_eq_enumFrom]
      have := get?_mem_enumFrom s 0 i c hc
      simpa using this
    apply List.mem_map.mpr
    refine ⟨(i, c), List.mem_filter.mpr ⟨hmem, by simpa using hdup⟩, rfl⟩

theorem mem_classification_dup (s m : List Record) (i : Nat) :
    i ∈ (classification s m).2 ↔
      ∃ c, s.get? i = some c ∧
        isDuplicate (normalizeDf m false) (normalize_for_comparison c false) = true := by
  rw [classification_eq]
  constructor
  · intro h
    rcases List.mem_map.mp h with ⟨p, hp, rfl⟩
    obtain ⟨hpe, hpq⟩ := List.mem_filter.mp hp
    exact ⟨p.2, enum_get? s p hpe, hpq⟩
  · rintro ⟨c, hc, hdup⟩
    have hmem : (i, c) ∈ s.enum := by
      rw [enum_eq_enumFrom]
      have := get?_mem_enumFrom s 0 i c hc
      simpa using this
    apply List.mem_map.mpr
    exact ⟨(i, c), List.mem_filter.mpr ⟨hmem, hdup⟩, rfl⟩

/-! ### The duplicate decision is an existential over the master rows -/

theorem isDuplicate_iff (M : List NormRecord) (x : NormRecord) :
    isDuplicate M x = true ↔ ∃ a ∈ M, keysAgree a x := by
  constructor
  · intro h
    simp only [isDuplicate] at h
    split at h
    · simp at h
    · split at h
      · simp at h
      · rw [decide_eq_true_eq] at h
        have hne : (((M.filter (fun m =>
            m.region_norm == x.region_norm && m.country_norm == x.country_norm &&
              m.brand_norm == x.brand_norm)).filter (fun m =>
            m.model_clean == x.model_clean)).filter (fun m =>
            m.cpu_norm == x.cpu_norm && m.gpu_norm == x.gpu_norm &&
              m.resolution_norm == x.resolution_norm)) ≠ [] := by
          intro hnil
          rw [hnil] at h
          simp at h
        obtain ⟨a, ha⟩ := List.exists_mem_of_ne_nil _ hne
        rw [List.mem_filter] at ha
        obtain ⟨ha2, hcpu⟩ := ha
        rw [List.mem_filter] at ha2
        obtain ⟨ha1, hmodel⟩ := ha2
        rw [List.mem_filter] at ha1
        obtain ⟨haM, hrcb⟩ := ha1
        refine ⟨a, haM, ?_⟩
        unfold keysAgree
        simp only [Bool.and_eq_true, beq_iff_eq] at hrcb hcpu hmodel
        exact ⟨hrcb.1.1, hrcb.1.2, hrcb.2, hmodel, hcpu.1.1, hcpu.1.2, hcpu.2⟩
  · rintro ⟨a, haM, hk⟩
    unfold keysAgree at hk
    obtain ⟨k1, k2, k3, k4, k5, k6, k7⟩ := hk
    have hm1 : a ∈ M.filter (fun m =>
        m.region_norm == x.region_norm && m.country_norm == x.country_norm &&
          m.brand_norm == x.brand_norm) :=
      List.mem_filter.mpr ⟨haM, by simp [k1, k2, k3]⟩
    have hm2 : a ∈ (M.filter (fun m =>
        m.region_norm == x.region_norm && m.country_norm == x.country_norm &&
          m.brand_norm == x.brand_norm)).filter (fun m =>
        m.model_clean == x.model_clean) :=
      List.mem_filter.mpr ⟨hm1, by simp [k4]⟩
    have hm3 : a ∈ ((M.filter (fun m =>
        m.region_norm == x.region_norm && m.country_norm == x.country_norm &&
          m.brand_norm == x.brand_norm)).filter (fun m =>
        m.model_clean == x.model_clean)).filter (fun m =>
        m.cpu_norm == x.cpu_norm && m.gpu_norm == x.gpu_norm &&
          m.resolution_norm == x.resolution_norm) :=
      List.mem_filter.mpr ⟨hm2, by simp [k5, k6, k7]⟩
    simp only [isDuplicate]
    rw [if_neg, if_neg]
    · simpa using List.length_pos_of_mem hm3
    · have := List.length_pos_of_mem hm2
      omega
    · have := List.length_pos_of_mem hm1
      omega

theorem isDuplicate_eq_false_iff (M : List NormRecord) (x : NormRecord) :
    isDuplicate M x = false ↔ ¬ ∃ a ∈ M, keysAgree a x := by
  rw [← isDuplicate_iff]
  cases isDuplicate M x <;> simp

/-! ### The matcher reads only the derived keys of the master rows -/

theorem filter_forall2 {p : NormRecord → Bool}
    (hp : ∀ a b, keysAgree a b → p a = p b) :
    ∀ {l₁ l₂ : List NormRecord}, List.Forall₂ keysAgree l₁ l₂ →
    List.Forall₂ keysAgree (l₁.filter p) (l₂.filter p) := by
  intro l₁ l₂ h
  induction h with
  | nil => simp
  | @cons a b la lb hab htail ih =>
      rw [List.filter_cons, List.filter_cons]
      have hpb : p b = p a := (hp a b hab).symm
      rw [hpb]
      cases hpa : p a with
      | true => exact List.Forall₂.cons hab ih
      | false => exact ih

theorem keysAgree_unfold {a b : NormRecord} (h : keysAgree a b) :
    a.region_norm = b.region_norm ∧ a.country_norm = b.country_norm ∧
    a.brand_norm = b.brand_norm ∧ a.model_clean = b.model_clean ∧
    a.cpu_norm = b.cpu_norm ∧ a.gpu_norm = b.gpu_norm ∧
    a.resolution_norm = b.resolution_norm := h

theorem isDuplicate_congr {M₁ M₂ : List NormRecord}
    (h : List.Forall₂ keysAgree M₁ M₂) (x : NormRecord) :
    isDuplicate M₁ x = isDuplicate M₂ x := by
  have h1 := filter_forall2 (p := fun m =>
      m.region_norm == x.region_norm && m.country_norm == x.country_norm &&
        m.brand_norm == x.brand_norm)
    (fun a b hab => by
      obtain ⟨k1, k2, k3, _, _, _, _⟩ := keysAgree_unfold hab
      simp only [k1, k2, k3]) h
  have h2 := filter_forall2 (p := fun m => m.model_clean == x.model_clean)
    (fun a b hab => by
      obtain ⟨_, _, _, k4, _, _, _⟩ := keysAgree_unfold hab
      simp only [k4]) h1
  have h3 := filter_forall2 (p := fun m =>
      m.cpu_norm == x.cpu_norm && m.gpu_norm == x.gpu_norm &&
        m.resolution_norm == x.resolution_norm)
    (fun a b hab => by
      obtain ⟨_, _, _, _, k5, k6, k7⟩ := keysAgree_unfold hab
      simp only [k5, k6, k7]) h2
  simp only [isDuplicate]
  rw [h1.length_eq, h2.length_eq, h3.length_eq]

theorem matchLoop_congr {M₁ M₂ : List NormRecord}
    (h : ∀ x, isDuplicate M₁ x = isDuplicate M₂ x) :
    ∀ L, matchLoop M₁ L = matchLoop M₂ L := by
  intro L
  induction L with
  | nil => rfl
  | cons p rest ih =>
      obtain ⟨idx, row⟩ := p
      simp only [matchLoop, h row, ih]

theorem normalizeDf_set_ct (m : List Record) (v : Option String) :
    List.Forall₂ keysAgree
      (normalizeDf (m.map (fun r => { r with countryTerritory := v })) false)
      (normalizeDf m false) := by
  induction m with
  | nil => simp [normalizeDf]
  | cons r m' ih =>
      simp only [normalizeDf, List.map_cons] at ih ⊢
      refine List.Forall₂.cons ?_ ih
      exact ⟨rfl, rfl, rfl, rfl, rfl, rfl, rfl⟩

/-! ### Shared partition facts -/

theorem find_matches_sublists (s m : List Record) :
    List.Sublist (find_matches s m).1 s ∧ List.Sublist (find_matches s m).2 s := by
  rw [find_matches_eq]
  have hsnd : s.enum.map Prod.snd = s := by
    rw [enum_eq_enumFrom]
    exact List.enumFrom_map_snd 0 s
  constructor <;>
  · conv_rhs => rw [← hsnd]
    exact List.Sublist.map Prod.snd (List.filter_sublist s.enum)

/-- Agreement on the stage-1 keys only (region, country, brand), as the code
computes them. -/
def stage1Agree (m c : Record) : Prop :=
  normField m.region = normField c.region ∧
  normField m.country = normField c.country ∧
  normField m.brand = normField c.brand

instance (m c : Record) : Decidable (stage1Agree m c) := by
  unfold stage1Agree; infer_instance

theorem recordKeysAgree_stages {m c : Record} (h : recordKeysAgree m c) :
    stage1Agree m c ∧ stage12Agree m c := by
  obtain ⟨k1, k2, k3, k4, k5, k6, k7⟩ := keysAgree_unfold h
  exact ⟨⟨k1, k2, k3⟩, k1, k2, k3, k4⟩

/-! ### Concrete records used in counterexamples and witnesses -/

/-- Candidate record for the C1 counterexample: its `Country` field is
`"US"` while its `Country/territory` field is `"Brazil"`. -/
def cC1 : Record :=
  ⟨some "latam", some "brazil", some "us", some "acer", some "x1",
   some "cpu1", some "gpu1", some "fhd"⟩

/-- Master record for the C1 counterexample: its `Country/territory` field
is `"us"` (agreeing with the candidate) while its `Country` field is
`"brazil"` (disagreeing). -/
def mC1 : Record :=
  ⟨some "latam", some "us", some "brazil", some "acer", some "x1",
   some "cpu1", some "gpu1", some "fhd"⟩

/-- Candidate record for the C2 witness. -/
def c2w : Record :=
  ⟨some "emea", none, some "DE", some "acer", some "Aspire 5", some "i5",
   some "mx550", some "1080p"⟩

/-- Master record for the C2 witness: raw fields differ in case and
punctuation but all seven keys agree with `c2w`. -/
def m2w : Record :=
  ⟨some "EMEA", none, some "de", some "Acer", some "acer aspire-5",
   some "I5", some "MX550", some "1080P"⟩

/-- Candidate record for the C7 witness. -/
def c7w : Record :=
  ⟨some "na", none, some "us", some "dell", some "XPS 13", some "i7-1250U",
   some "iris", some "fhd"⟩

/-- Master record for the C7 witness: same region, country, brand and model
as `c7w` but a different CPU. -/
def m7w : Record :=
  ⟨some "na", none, some "us", some "dell", some "XPS 13", some "i5-1230U",
   some "iris", some "fhd"⟩

/-! ### Claim theorems -/

/-- C1, counterexample: the claim says the caller of the normalizer selects
the country source field by dataset role, but `find_matches` normalizes the
master dataframe with `is_master=False`.  On a master record whose
`Country/territory` field agrees with the candidate while its `Country`
field does not, `find_matches` classifies the candidate NEW, whereas the
role-selecting caller described by the spec would classify it DUPLICATE. -/
theorem C1_counterexample_caller_ignores_role :
    (normalize_for_comparison mC1 false).country_norm = "brazil"
    ∧ normField mC1.countryTerritory = "us"
    ∧ find_matches [cC1] [mC1] = ([cC1], [])
    ∧ find_matches_spec_role_selected [cC1] [mC1] = ([], [cC1])
    ∧ find_matches [cC1] [mC1] ≠ find_matches_spec_role_selected [cC1] [mC1] := by
  refine ⟨by decide, by decide, by decide, by decide, by decide⟩

/-- C1, amended: `normalize_for_comparison` itself derives the country key
from `"Country/territory"` when `is_master` is true and from `"Country"`
otherwise; but `find_matches` normalizes both dataframes with
`is_master=False`, so the master-role dataset's country key is also derived
from the `"Country"` field — its classification result never depends on the
master records' `"Country/territory"` values. -/
theorem C1_amended_country_source :
    (∀ (r : Record) (b : Bool), (normalize_for_comparison r b).country_norm =
        normField (if b then r.countryTerritory else r.country))
    ∧ (∀ (s m : List Record) (v : Option String),
        find_matches s (m.map (fun r => { r with countryTerritory := v })) =
          find_matches s m) := by
  refine ⟨fun r b => rfl, fun s m v => ?_⟩
  have hcong : ∀ x, isDuplicate
      (normalizeDf (m.map (fun r => { r with countryTerritory := v })) false) x =
      isDuplicate (normalizeDf m false) x :=
    fun x => isDuplicate_congr (normalizeDf_set_ct m v) x
  have hcls : classification s (m.map (fun r => { r with countryTerritory := v })) =
      classification s m := by
    show matchLoop (normalizeDf (m.map (fun r => { r with countryTerritory := v })) false)
        ((normalizeDf s false).enum) =
      matchLoop (normalizeDf m false) ((normalizeDf s false).enum)
    exact matchLoop_congr hcong _
  show (iloc s (classification s (m.map (fun r => { r with countryTerritory := v }))).1,
        iloc s (classification s (m.map (fun r => { r with countryTerritory := v }))).2) =
      (iloc s (classification s m).1, iloc s (classification s m).2)
  rw [hcls]

/-- C2: for a candidate record `c` at index `i`, the matcher classifies it
NEW when no master record agrees on the region, country and brand keys;
NEW when no master record agrees on those and the model key; and DUPLICATE
exactly when some master record agrees on all seven keys (region, country,
brand, model, CPU, GPU, resolution), NEW otherwise. -/
theorem C2_matcher_stages (scraped master : List Record) (i : Nat) (c : Record)
    (hc : scraped.get? i = some c) :
    ((¬ ∃ m ∈ master, stage1Agree m c) → i ∈ (classification scraped master).1)
    ∧ ((¬ ∃ m ∈ master, stage12Agree m c) → i ∈ (classification scraped master).1)
    ∧ (i ∈ (classification scraped master).2 ↔ ∃ m ∈ master, recordKeysAgree m c)
    ∧ (i ∈ (classification scraped master).1 ↔ ¬ ∃ m ∈ master, recordKeysAgree m c) := by
  have hdup : isDuplicate (normalizeDf master false)
      (normalize_for_comparison c false) = true ↔
      ∃ m ∈ master, recordKeysAgree m c := by
    rw [isDuplicate_iff]
    constructor
    · rintro ⟨a, haM, hk⟩
      simp only [normalizeDf, List.mem_map] at haM
      obtain ⟨r, hr, rfl⟩ := haM
      exact ⟨r, hr, hk⟩
    · rintro ⟨m, hm, hk⟩
      refine ⟨normalize_for_comparison m false, ?_, hk⟩
      simp only [normalizeDf, List.mem_map]
      exact ⟨m, hm, rfl⟩
  have hnew : i ∈ (classification scraped master).1 ↔
      ¬ ∃ m ∈ master, recordKeysAgree m c := by
    rw [mem_classification_new]
    constructor
    · rintro ⟨c', hc', hfalse⟩
      rw [hc] at hc'
      injection hc' with hc''
      subst hc''
      intro hex
      rw [hdup.mpr hex] at hfalse
      exact absurd hfalse (by decide)
    · intro hnex
      refine ⟨c, hc, ?_⟩
      rw [isDuplicate_eq_false_iff]
      intro hex
      exact hnex (hdup.mp ((isDuplicate_iff _ _).mpr hex))
  have hdupmem : i ∈ (classification scraped master).2 ↔
      ∃ m ∈ master, recordKeysAgree m c := by
    rw [mem_classification_dup]
    constructor
    · rintro ⟨c', hc', htrue⟩
      rw [hc] at hc'
      injection hc' with hc''
      subst hc''
      exact hdup.mp htrue
    · intro hex
      exact ⟨c, hc, hdup.mpr hex⟩
  refine ⟨?_, ?_, hdupmem, hnew⟩
  · intro hno1
    apply hnew.mpr
    rintro ⟨m, hm, hk⟩
    exact hno1 ⟨m, hm, (recordKeysAgree_stages hk).1⟩
  · intro hno12
    apply hnew.mpr
    rintro ⟨m, hm, hk⟩
    exact hno12 ⟨m, hm, (recordKeysAgree_stages hk).2⟩

/-- C2 witness: on a one-row master and one-row candidate whose raw fields
differ in case and punctuation but agree on all seven keys, the theorem
applies and the candidate index is classified DUPLICATE. -/
theorem C2_matcher_stages_witness :
    ((¬ ∃ m ∈ [m2w], stage1Agree m c2w) → 0 ∈ (classification [c2w] [m2w]).1)
    ∧ ((¬ ∃ m ∈ [m2w], stage12Agree m c2w) → 0 ∈ (classification [c2w] [m2w]).1)
    ∧ (0 ∈ (classification [c2w] [m2w]).2 ↔ ∃ m ∈ [m2w], recordKeysAgree m c2w)
    ∧ (0 ∈ (classification [c2w] [m2w]).1 ↔ ¬ ∃ m ∈ [m2w], recordKeysAgree m c2w) :=
  C2_matcher_stages [c2w] [m2w] 0 c2w rfl

/-- C3: the two outputs of `find_matches` partition the candidate dataset:
the row counts add up to the candidate count, the NEW and DUPLICATE index
lists are disjoint, every candidate index lands in one of them, and each
output is a sublist of the original candidate rows (original order,
original un-normalized field values). -/
theorem C3_outputs_partition (s m : List Record) :
    (find_matches s m).1.length + (find_matches s m).2.length = s.length
    ∧ ((classification s m).1.all
        (fun i => !((classification s m).2.contains i))) = true
    ∧ ((List.range s.length).all (fun i =>
        ((classification s m).1.contains i) ||
          ((classification s m).2.contains i))) = true
    ∧ List.Sublist (find_matches s m).1 s
    ∧ List.Sublist (find_matches s m).2 s := by
  refine ⟨?_, ?_, ?_, (find_matches_sublists s m).1, (find_matches_sublists s m).2⟩
  · rw [find_matches_eq]
    simp only [List.length_map]
    have h := length_filter_add_length_filter_not
      (fun p : Nat × Record =>
        isDuplicate (normalizeDf m false) (normalize_for_comparison p.2 false))
      s.enum
    have hlen : s.enum.length = s.length := by
      rw [enum_eq_enumFrom, List.enumFrom_length]
    rw [hlen] at h
    omega
  · rw [List.all_eq_true]
    intro i hi
    rw [mem_classification_new] at hi
    obtain ⟨c, hc, hfalse⟩ := hi
    show (!((classification s m).2.contains i)) = true
    cases hcont : (classification s m).2.contains i with
    | false => rfl
    | true =>
        exfalso
        have hmem : i ∈ (classification s m).2 := by
          simpa [List.contains, List.elem_iff] using hcont
        rw [mem_classification_dup] at hmem
        obtain ⟨c', hc', htrue⟩ := hmem
        rw [hc] at hc'
        injection hc' with hc''
        subst hc''
        rw [hfalse] at htrue
        exact Bool.false_ne_true htrue
  · rw [List.all_eq_true]
    intro i hi0
    have hi : i < s.length := List.mem_range.mp hi0
    have hget : s.get? i = some (s.get ⟨i, hi⟩) := List.get?_eq_get hi
    show (((classification s m).1.contains i) ||
        ((classification s m).2.contains i)) = true
    cases hdup : isDuplicate (normalizeDf m false)
        (normalize_for_comparison (s.get ⟨i, hi⟩) false) with
    | true =>
        have hmem : i ∈ (classification s m).2 :=
          (mem_classification_dup s m i).mpr ⟨_, hget, hdup⟩
        simp [List.contains, List.elem_iff, hmem]
    | false =>
        have hmem : i ∈ (classification s m).1 :=
          (mem_classification_new s m i).mpr ⟨_, hget, hdup⟩
        simp [List.contains, List.elem_iff, hmem]

/-- C5: the cleaner replaces each punctuation character by a single space
(never deletes it): the punctuation loop equals a character map sending
punctuation to a space and keeping everything else; in particular
`clean_model_name "i7-12700H" = "i7 12700h"`, not `"i712700h"`. -/
theorem C5_punctuation_becomes_space :
    (∀ l : List Char,
      removePunct l = l.map (fun c => if isPunct c then ' ' else c))
    ∧ clean_model_name (some "i7-12700H") = "i7 12700h"
    ∧ clean_model_name (some "i7-12700H") ≠ "i712700h" :=
  ⟨removePunct_eq_map, by decide, by decide⟩

/-- C6: the cleaner drops exactly the tokens in the noise vocabulary and
keeps every other token; in particular `clean_model_name` on
`"Acer Aspire 5 A515-56"` yields `"aspire 5 a515 56"`, whose tokens include
`aspire`, `5`, `a515` and `56` but not `acer`. -/
theorem C6_noise_tokens_dropped :
    (∀ (l t : List Char), t ∈ cleanTokens l ↔
      (t ∈ pySplit (stripChars (collapseWs (removePunct (stripChars (lowerChars l)))))
        ∧ noiseTok.contains t = false))
    ∧ clean_model_name (some "Acer Aspire 5 A515-56") = "aspire 5 a515 56"
    ∧ "aspire".data ∈ pySplit ("aspire 5 a515 56").data
    ∧ "5".data ∈ pySplit ("aspire 5 a515 56").data
    ∧ "a515".data ∈ pySplit ("aspire 5 a515 56").data
    ∧ "56".data ∈ pySplit ("aspire 5 a515 56").data
    ∧ "acer".data ∉ pySplit ("aspire 5 a515 56").data := by
  refine ⟨?_, by decide, by decide, by decide, by decide, by decide, by decide⟩
  intro l t
  rw [cleanTokens_eq, List.mem_filter]
  simp

/-- C7: a candidate that agrees with at least one master record on the
region, country, brand and cleaned-model keys, but whose CPU key differs
from every such master record's CPU key, is classified NEW, not
DUPLICATE. -/
theorem C7_cpu_variant_is_new (master : List Record) (c : Record)
    (h1 : ∃ m ∈ master, stage12Agree m c)
    (h2 : ∀ m ∈ master, stage12Agree m c →
      normField m.cpuModel ≠ normField c.cpuModel) :
    isDuplicate (normalizeDf master false) (normalize_for_comparison c false) = false
    ∧ ∀ (scraped : List Record) (i : Nat), scraped.get? i = some c →
      (i ∈ (classification scraped master).1 ∧
        i ∉ (classification scraped master).2) := by
  have hno : ¬ ∃ a ∈ normalizeDf master false,
      keysAgree a (normalize_for_comparison c false) := by
    rintro ⟨a, haM, hk⟩
    simp only [normalizeDf, List.mem_map] at haM
    obtain ⟨r, hr, rfl⟩ := haM
    obtain ⟨k1, k2, k3, k4, k5, _, _⟩ := keysAgree_unfold hk
    exact h2 r hr ⟨k1, k2, k3, k4⟩ k5
  have hdup : isDuplicate (normalizeDf master false)
      (normalize_for_comparison c false) = false :=
    (isDuplicate_eq_false_iff _ _).mpr hno
  refine ⟨hdup, ?_⟩
  intro scraped i hci
  constructor
  · exact (mem_classification_new scraped master i).mpr ⟨c, hci, hdup⟩
  · intro hmem
    rw [mem_classification_dup] at hmem
    obtain ⟨c', hc', htrue⟩ := hmem
    rw [hci] at hc'
    injection hc' with hc''
    subst hc''
    rw [hdup] at htrue
    exact Bool.false_ne_true htrue

/-- C7 witness: a one-row master agreeing with the candidate on region,
country, brand and model but with a different CPU key satisfies both
hypotheses, and the candidate is classified NEW. -/
theorem C7_cpu_variant_is_new_witness :
    (∃ m ∈ [m7w], stage12Agree m c7w)
    ∧ (∀ m ∈ [m7w], stage12Agree m c7w →
        normField m.cpuModel ≠ normField c7w.cpuModel)
    ∧ isDuplicate (normalizeDf [m7w] false)
        (normalize_for_comparison c7w false) = false
    ∧ (0 ∈ (classification [c7w] [m7w]).1 ∧ 0 ∉ (classification [c7w] [m7w]).2) :=
  ⟨by decide, by decide,
   (C7_cpu_variant_is_new [m7w] c7w (by decide) (by decide)).1,
   (C7_cpu_variant_is_new [m7w] c7w (by decide) (by decide)).2 [c7w] 0 rfl⟩

/-- C8: every normalizer is total: a missing (`none`) or empty field value
yields the empty-string key and never fails; the all-missing record
normalizes to all-empty keys under both roles, and such empty keys compare
equal like any other value, so two all-missing records match and the
candidate is classified DUPLICATE. -/
theorem C8_normalizers_total_on_missing :
    normField none = ""
    ∧ normField (some "") = ""
    ∧ clean_model_name none = ""
    ∧ clean_model_name (some "") = ""
    ∧ normalize_for_comparison emptyRecord false =
        { orig := emptyRecord, region_norm := "", country_norm := ""
        , brand_norm := "", model_clean := "", cpu_norm := "", gpu_norm := ""
        , resolution_norm := "" }
    ∧ normalize_for_comparison emptyRecord true =
        { orig := emptyRecord, region_norm := "", country_norm := ""
        , brand_norm := "", model_clean := "", cpu_norm := "", gpu_norm := ""
        , resolution_norm := "" }
    ∧ isDuplicate [normalize_for_comparison emptyRecord false]
        (normalize_for_comparison emptyRecord false) = true
    ∧ find_matches [emptyRecord] [emptyRecord] = ([], [emptyRecord]) := by
  refine ⟨by decide, by decide, by decide, by decide, by decide, by decide,
    by decide, by decide⟩

/-- C9: the matcher does not mutate its inputs: normalization returns a
working copy that carries the original record unchanged in its `orig`
field, and both outputs of `find_matches` are sublists of the original
candidate rows — the original, un-normalized field values, in their
original order.  (Python-level aliasing is modelled by value passing: the
`df.copy()` at source line 120 is what makes the embedding faithful.) -/
theorem C9_inputs_not_mutated :
    (∀ (r : Record) (b : Bool), (normalize_for_comparison r b).orig = r)
    ∧ (∀ s m : List Record,
        List.Sublist (find_matches s m).1 s ∧ List.Sublist (find_matches s m).2 s) :=
  ⟨fun _ _ => rfl, fun s m => find_matches_sublists s m⟩

end NBPC
